import Mathlib

/-!
Verification of `src/data/make_dataset.py` (ondata_enrich).

The module enriches postal-code records through HTTP calls and shapes the
JSON responses with a nested-dictionary flattener.  We shallowly embed the
Python functions:

* Python JSON-like values become the inductive `PyVal`; Python dictionaries
  are association lists in insertion order (Python 3 dicts preserve
  insertion order, and `.items()` iterates in that order).
* Raised exceptions become `Except PyExc`; the exception class only matters
  up to the `except` clauses appearing in the source, so `PyExc` has one
  constructor per class the source distinguishes.
* The accumulator list `values` of `convert_nested_dict` is mutated in
  place by the source (`values.append(...)`) and shared down the recursion;
  we thread its state explicitly and also return it alongside the result,
  including when an exception escapes, which is exactly the information an
  aliased caller (such as the shared default argument) observes.
* Network traffic is an oracle `Nat → Option PyObj`: attempt `i` either
  yields the parsed response body (`some`) or raises the `ConnectionError`
  that the source catches (`none`).  Parsing `response.text` with
  `json.loads` is folded into the oracle; the claims under study never
  depend on a response that is received but unparseable.
-/

/-- Embedding of the Python values manipulated by the module: numbers
(`int`/`float`, modelled as `Int`, which the studied claims never
distinguish), booleans, strings, `None`, and dictionaries in insertion
order. -/
inductive PyVal : Type where
  | num (n : Int)
  | bool (b : Bool)
  | str (s : String)
  | null
  | dict (fields : List (String × PyVal))

/-- A Python dictionary with string keys, as the parsed JSON bodies are. -/
abbrev PyObj := List (String × PyVal)

/-- The exception classes the source distinguishes in `except` clauses or
can raise itself. -/
inductive PyExc : Type where
  | connectionError
  | valueError
  | keyError
  | attributeError
  | typeError
  | unboundLocalError
deriving DecidableEq, Repr

/-! ## Dictionary primitives

Python dictionaries are embedded as association lists without duplicate
keys.  `dictKeys`, `dictFind`, `dictSet`, `dictPop` and `dictUpdate` model
key listing, subscript read, subscript assignment, `dict.pop` and
`dict.update`.  Subscript assignment on a key already present overwrites it
in place; on a fresh key it appends at the end, as Python 3 dictionaries
do. -/

def dictKeys {κ α : Type} (d : List (κ × α)) : List κ := d.map Prod.fst

def dictFind {κ α : Type} [DecidableEq κ] : List (κ × α) → κ → Option α
  | [], _ => Option.none
  | q :: r, k => if q.1 = k then some q.2 else dictFind r k

def dictSet {κ α : Type} [DecidableEq κ] (d : List (κ × α)) (k : κ) (v : α) :
    List (κ × α) :=
  if k ∈ dictKeys d then d.map (fun q => if q.1 = k then (k, v) else q)
  else d ++ [(k, v)]

def dictPop {κ α : Type} [DecidableEq κ] (d : List (κ × α)) (k : κ) : List (κ × α) :=
  d.filter (fun q => decide (q.1 ≠ k))

def dictUpdate {κ α : Type} [DecidableEq κ] (a b : List (κ × α)) : List (κ × α) :=
  b.foldl (fun acc q => dictSet acc q.1 q.2) a

/-- Source lines 225-232, `dict_merge`: build a fresh dictionary, update it
with `dict_a`, then with `dict_b`. -/
def dict_merge {κ α : Type} [DecidableEq κ] (a b : List (κ × α)) : List (κ × α) :=
  dictUpdate (dictUpdate [] a) b

/-- Source lines 202-206, `is_numeric`: `isinstance(data, int) or
isinstance(data, float)`.  Python `bool` is a subclass of `int`, so
booleans count as numeric. -/
def is_numeric : PyVal → Bool
  | .num _ => true
  | .bool _ => true
  | _ => false

/-- Models `reduce(dict_merge, values)` from source line 223: every element
of `values` is the singleton dictionary appended at line 221, which we
represent by its unique key-value pair.  `reduce` starts from the first
singleton and merges the rest in from the left.  Only called on a nonempty
list (line 222 guards on `if values`). -/
def reduceSingletons : List (String × PyVal) → List (String × PyVal)
  | [] => []
  | p :: rest => rest.foldl (fun acc q => dict_merge acc [q]) [p]

mutual

/-- Source lines 208-223, `convert_nested_dict(data, prefix='', values=[])`.
Returns the final state of the (mutated-in-place) `values` list together
with the outcome: `.ok (some v)` when the function returns the value `v`,
`.ok Option.none` when it falls off the end (Python returns `None`), and
`.error e` when an exception escapes.  Branches, in source order:
`is_numeric(data)` returns the number itself (booleans included);
`not data` returns the falsy value itself (`None`, empty string, empty
dict); otherwise `data.items()` is iterated, which raises
`AttributeError` when `data` is a non-empty string. -/
def convert_nested_dict (data : PyVal) (pre : String)
    (values : List (String × PyVal)) :
    List (String × PyVal) × Except PyExc (Option PyVal) :=
  match data with
  | .num n => (values, .ok (some (.num n)))
  | .bool b => (values, .ok (some (.bool b)))
  | .null => (values, .ok (some .null))
  | .str s =>
      if s = "" then (values, .ok (some (.str s)))
      else (values, .error .attributeError)
  | .dict fields =>
      if fields.isEmpty then (values, .ok (some (.dict fields)))
      else
        match convert_nested_fields fields pre values with
        | (values2, .error e) => (values2, .error e)
        | (values2, .ok _) =>
            if values2.isEmpty then (values2, .ok Option.none)
            else (values2, .ok (some (.dict (reduceSingletons values2))))

/-- The `for key, value in data.items()` loop of lines 217-221: each child
is flattened with the extended prefix and the shared `values` list, and a
numeric result is appended to `values` as a singleton dictionary. -/
def convert_nested_fields (fields : List (String × PyVal)) (pre : String)
    (values : List (String × PyVal)) :
    List (String × PyVal) × Except PyExc Unit :=
  match fields with
  | [] => (values, .ok ())
  | (key, value) :: rest =>
      let new_key := if pre = "" then key else pre ++ "__" ++ key
      match convert_nested_dict value new_key values with
      | (values2, .error e) => (values2, .error e)
      | (values2, .ok new_value) =>
          match new_value with
          | some nv =>
              if is_numeric nv then
                convert_nested_fields rest pre (values2 ++ [(new_key, nv)])
              else convert_nested_fields rest pre values2
          | Option.none => convert_nested_fields rest pre values2

end

/-! ## HTTP wrapper and geocoder

`net : Nat → Option PyObj` is the transport oracle: physical attempt `i`
either returns a response whose body parses to the given dictionary, or
fails at connection level with the `ConnectionError` class that the
source catches.  Each model returns the index of the next unused attempt
so that retries consume successive oracle entries. -/

/-- Source lines 64-85, `get_response(base_url, token, lat, lng,
max_retries=5)`: perform the request; on `ConnectionError` retry with
`max_retries - 1` while `max_retries` is truthy, otherwise raise
`ValueError`.  `json.loads(response.text)` by the callers is folded into
the oracle, so a successful attempt yields the parsed body.  The source
consults `max_retries` only inside the handler; the two cases below write
that check out so that the recursion is structural on `max_retries`, with
identical behaviour. -/
def get_response_go (net : Nat → Option PyObj) (attempt : Nat) :
    Nat → Nat × Except PyExc PyObj
  | 0 =>
      match net attempt with
      | some r => (attempt + 1, .ok r)
      | Option.none => (attempt + 1, .error .valueError)
  | m + 1 =>
      match net attempt with
      | some r => (attempt + 1, .ok r)
      | Option.none => get_response_go net (attempt + 1) m

/-- `get_response` as called with the default bound `max_retries=5`. -/
def get_response (net : Nat → Option PyObj) : Nat × Except PyExc PyObj :=
  get_response_go net 0 5

/-- Source lines 16-43, `get_point(cep, token, max_retries=5)`.
`get_point_shape` is the body of the `try` block after a parsed response:
an `error` field yields the geocoder-error dictionary; otherwise
`geocoder_error` is set to the string `None` and `address` is popped.  `except ConnectionError` would retry, but `get_response` never
lets a `ConnectionError` escape (it raises `ValueError` after its own
retries), so that branch is unreachable.  The final `except Exception`
handler evaluates `if response:` with the local `response` still unbound
(the assignment never completed), so the handler itself raises
`UnboundLocalError`. -/
def get_point_shape (a2 : Nat) (data : PyObj) : Nat × Except PyExc PyObj :=
  match dictFind data "error" with
  | some e => (a2, .ok [("geocoder_error", e)])
  | Option.none =>
      (a2, .ok (dictPop (dictSet data "geocoder_error" (.str "None")) "address"))

def get_point_go (net : Nat → Option PyObj) (attempt : Nat) :
    Nat → Nat × Except PyExc PyObj
  | 0 =>
      match get_response_go net attempt 5 with
      | (a2, .ok data) => get_point_shape a2 data
      | (a2, .error e) =>
          match e with
          | .connectionError => (a2, .ok [("error", .str "max_retries")])
          | _ => (a2, .error .unboundLocalError)
  | m + 1 =>
      match get_response_go net attempt 5 with
      | (a2, .ok data) => get_point_shape a2 data
      | (a2, .error e) =>
          match e with
          | .connectionError => get_point_go net a2 m
          | _ => (a2, .error .unboundLocalError)

/-- `get_point` as called by `enrich_cep`, with the default bound. -/
def get_point (net : Nat → Option PyObj) : Nat × Except PyExc PyObj :=
  (get_point_go net 0 5)

/-! ## Per-record orchestrator -/

/-- Keys of the dictionary returned by `enrich_cep`: either the record
index `cep_index` or a plain string key. -/
inductive RecKey : Type where
  | idx (i : Nat)
  | key (s : String)
deriving DecidableEq, Repr

/-- A per-record result dictionary as produced by `enrich_cep`. -/
abbrev RecOut := List (RecKey × PyVal)

/-- Python `str.upper` on the ASCII strings compared here: uppercase the
characters one by one. -/
def pyStrUpper (s : String) : String := String.mk (s.data.map Char.toUpper)

/-- Python `value.upper()`: uppercases a string, raises `AttributeError`
on values without that method (the JSON values occurring here). -/
def pyUpper : PyVal → Except PyExc String
  | .str s => .ok (pyStrUpper s)
  | _ => .error .attributeError

/-- Source lines 248-266, `enrich_cep`.  `ptRes` is the outcome of
`get_point(cep, token)` and `point_data lat lng` the outcome of
`get_point_data` for the resolved coordinate (each of its enrichers is an
independent HTTP consumer; the orchestrator only sees the merged
dictionary or the escaping exception).  The bare `except` turns any
exception other than `KeyboardInterrupt` into the failure-marker record;
`KeyboardInterrupt` (re-raised by the source) is outside `PyExc` and so
outside the model.  The dictionary display of line 261 merges `pt_data`
then `cep_data` with the later key winning, i.e. `dict_merge`. -/
def enrich_cep (cep_index : Nat) (ptRes : Except PyExc PyObj)
    (point_data : PyVal → PyVal → Except PyExc PyObj) : RecOut :=
  match ptRes with
  | .error _ => [(.idx cep_index, .dict [("Error", .bool true)])]
  | .ok pt_data =>
      match dictFind pt_data "geocoder_error" with
      | Option.none => [(.idx cep_index, .dict [("Error", .bool true)])]
      | some ge =>
          match pyUpper ge with
          | .error _ => [(.idx cep_index, .dict [("Error", .bool true)])]
          | .ok u =>
              if u ≠ "NONE" then [(.key "geocoder_error", ge)]
              else
                match dictFind pt_data "latitude", dictFind pt_data "longitude" with
                | some lat, some lng =>
                    (match point_data lat lng with
                     | .ok cep_data =>
                         [(.idx cep_index, .dict (dict_merge pt_data cep_data))]
                     | .error _ => [(.idx cep_index, .dict [("Error", .bool true)])])
                | _, _ => [(.idx cep_index, .dict [("Error", .bool true)])]

/-! ## Consumption potential -/

/-- Python `sum(list(...))` over dictionary values: left fold from `0`,
`TypeError` on a non-numeric element (booleans count as `int`). -/
def pySumGo : Int → List PyVal → Except PyExc Int
  | acc, [] => .ok acc
  | acc, .num n :: r => pySumGo (acc + n) r
  | acc, .bool b :: r => pySumGo (acc + if b then 1 else 0) r
  | _, _ :: _ => .error .typeError

def pySum (l : List PyVal) : Except PyExc Int := pySumGo 0 l

/-- Source lines 147-153, `reduce_potential(potential, data_potential)`:
flatten the singleton dictionary, then assign the sum of the flattened
values under the key `potential + '__total'`.  Subscript assignment on the
`None` returned by a leafless flattening raises `TypeError`. -/
def reduce_potential (potential : String) (data_potential : PyVal) :
    Except PyExc PyObj :=
  match (convert_nested_dict (.dict [(potential, data_potential)]) "" []).2 with
  | .error e => .error e
  | .ok (some (.dict d)) =>
      match pySum (d.map Prod.snd) with
      | .error e => .error e
      | .ok s => .ok (dictSet d (potential ++ "__total") (.num s))
  | .ok _ => .error .typeError

/-- The fold hidden in `reduce(dict_merge, potentials)` of source line
160, consuming the generator left to right. -/
def reduce_potentials_go : List (String × PyVal) → PyObj → Except PyExc PyObj
  | [], acc => .ok acc
  | (k, v) :: rest, acc =>
      match reduce_potential k v with
      | .error e => .error e
      | .ok d => reduce_potentials_go rest (dict_merge acc d)

/-- Source lines 155-160, `reduce_potentials(data_potentials)`: reduce the
per-category dictionaries with `dict_merge`; `reduce` over an empty
sequence with no initial value raises `TypeError`. -/
def reduce_potentials (data_potentials : PyObj) : Except PyExc PyObj :=
  match data_potentials with
  | [] => .error .typeError
  | (k, v) :: rest =>
      match reduce_potential k v with
      | .error e => .error e
      | .ok first => reduce_potentials_go rest first

/-- Source lines 162-177, `get_consumption_potential`, from the parsed
response body onwards (the URL formatting and `get_response` call feed
the transport oracle and do not touch the shaping; this enricher has no
local exception handler, so errors escape).  The final dictionary
comprehension prefixes every key; the prefixing is injective, so the
comprehension is a plain map in insertion order. -/
def get_consumption_potential (data_potentials : PyObj) : Except PyExc PyObj :=
  match reduce_potentials data_potentials with
  | .error e => .error e
  | .ok pots => .ok (pots.map (fun kv => ("consumption_potential__" ++ kv.1, kv.2)))

/-! ## Batch driver

Source lines 268-337, `main`: joblib `Parallel` dispatches `enrich_cep`
over the input rows and returns the per-record dictionaries re-associated
to dispatch positions regardless of completion order; the driver then
reduces them with `dict_merge` into one dictionary keyed by record index
(line 336).  A parallel execution with any worker count is abstracted by
the list of `(position, result)` pairs in an arbitrary completion order —
a permutation of the sequentially tagged results.  The pandas
`DataFrame.from_dict`, `join` and `fillna(0)` glue is a bijective
reshaping of that dictionary and stays outside the model. -/

/-- Sequential execution: apply the per-record function in input order. -/
def seqRun (records : List (Nat × String)) (enrich : Nat → String → RecOut) :
    List RecOut :=
  records.map (fun rc => enrich rc.1 rc.2)

/-- `reduce(dict_merge, data)` from line 336: `TypeError` (modelled as
`Option.none`) on an empty batch, otherwise fold from the first result. -/
def reduceMerge : List RecOut → Option RecOut
  | [] => Option.none
  | d :: rest => some (rest.foldl (fun acc q => dict_merge acc q) d)

/-- The output table of a sequential run, as the merged dictionary. -/
def seqTable (records : List (Nat × String)) (enrich : Nat → String → RecOut) :
    Option RecOut :=
  reduceMerge (seqRun records enrich)

/-- Tag a list of results with their dispatch positions starting at `s`. -/
def tagFrom {α : Type} (s : Nat) : List α → List (Nat × α)
  | [] => []
  | o :: rest => (s, o) :: tagFrom (s + 1) rest

/-- joblib re-association: read positions `s, s+1, ...` (`n` of them) back
out of the completion-ordered pairs; `Option.none` if a position is
missing (cannot happen for a permutation of a tagging). -/
def collectFrom (completions : List (Nat × RecOut)) (s : Nat) :
    Nat → Option (List RecOut)
  | 0 => some []
  | n + 1 =>
      match dictFind completions s with
      | some o => (collectFrom completions (s + 1) n).map (o :: ·)
      | Option.none => Option.none

/-- The output table of a parallel run whose completion order is
`completions`: gather by position, then reduce as line 336 does. -/
def parTable (records : List (Nat × String)) (completions : List (Nat × RecOut)) :
    Option RecOut :=
  match collectFrom completions 0 records.length with
  | some outs => reduceMerge outs
  | Option.none => Option.none

/-! ## Derived specification vocabulary

The following definitions do not model source code; they give names to the
observable quantities the claims talk about (leaf sums, emitted key-value
pairs, key sets), so that the claim theorems can be stated.  `emitF` and
`emitEntry` replay, structurally, which pairs the loop of
`convert_nested_dict` appends to `values` and in which order. -/

/-- First-hit choice between two optional values (Python `a or b` on
dictionary lookups); used to state last-write-wins merging. -/
def optOr {α : Type} : Option α → Option α → Option α
  | some v, _ => some v
  | Option.none, b => b

/-- `d` is a valid embedded Python dictionary: no duplicate keys. -/
abbrev NodupKeys {κ α : Type} (d : List (κ × α)) : Prop := (dictKeys d).Nodup

mutual

/-- Every leaf of the nested structure is a number and every dictionary on
the way down is non-empty (so nothing falls into the falsy branch of the
flattener). -/
def allNum : PyVal → Bool
  | .num _ => true
  | .dict fs => !fs.isEmpty && allNumF fs
  | _ => false

def allNumF : List (String × PyVal) → Bool
  | [] => true
  | (_, v) :: r => allNum v && allNumF r

end

mutual

/-- Sum of all numeric leaves of a nested structure. -/
def leavesSum : PyVal → Int
  | .num n => n
  | .dict fs => leavesSumF fs
  | _ => 0

def leavesSumF : List (String × PyVal) → Int
  | [] => 0
  | (_, v) :: r => leavesSum v + leavesSumF r

end

mutual

/-- The key-value pairs the flattening loop appends to `values` while
processing the fields of one dictionary under prefix `pre`, in order. -/
def emitF : List (String × PyVal) → String → List (String × PyVal)
  | [], _ => []
  | (key, value) :: rest, pre =>
      emitEntry value (if pre = "" then key else pre ++ "__" ++ key) ++ emitF rest pre

/-- The pairs contributed by one child value under its compound key. -/
def emitEntry : PyVal → String → List (String × PyVal)
  | .num n, nk => [(nk, .num n)]
  | .bool b, nk => [(nk, .bool b)]
  | .dict fs, nk => emitF fs nk
  | _, _ => []

end

mutual

/-- No numeric leaf anywhere, and every leaf is falsy (empty string,
`None`, or a dictionary, possibly empty): exactly the structures on which
the flattener completes without collecting anything. -/
def noNumFalsy : PyVal → Bool
  | .num _ => false
  | .bool _ => false
  | .str s => s == ""
  | .null => true
  | .dict fs => noNumFalsyF fs

def noNumFalsyF : List (String × PyVal) → Bool
  | [] => true
  | (_, v) :: r => noNumFalsy v && noNumFalsyF r

end

/-- A single-level mapping whose values are all numeric (the inputs the
spec calls already-flat mappings). -/
def flatNum : List (String × PyVal) → Bool
  | [] => true
  | (_, v) :: r => is_numeric v && flatNum r

/-- The numeric content of a leaf (booleans count as `0`/`1`, as Python
arithmetic does). -/
def valInt : PyVal → Int
  | .num n => n
  | .bool b => if b then 1 else 0
  | _ => 0

/-- Sum of the values of a flattened mapping. -/
def sumVals (l : List (String × PyVal)) : Int := (l.map fun q => valInt q.2).sum

/-- The dictionary `reduce_potential` produces for one category, under the
no-collision hypotheses of the amended claim C5. -/
def potentialOut (c : String) (v : PyVal) : PyObj :=
  emitEntry v c ++ [(c ++ "__total", .num (leavesSum v))]

/-- All keys one category contributes to the consumption-potential
output, before prefixing. -/
def catOutKeys (c : String) (v : PyVal) : List String :=
  dictKeys (emitEntry v c) ++ [c ++ "__total"]

/-- All keys the whole response contributes, before prefixing. -/
def allCatKeys (dps : PyObj) : List String :=
  dps.flatMap fun p => catOutKeys p.1 p.2

/-- A call `convert_nested_dict(data)` with both optional arguments
omitted.  Python evaluated the default list `[]` once, at function
definition time; every such call shares that one list object.  `cell` is
its state before the call; the state after the call is the returned
accumulator (appends mutate the shared object in place). -/
def convert_default_call (data : PyVal) (cell : List (String × PyVal)) :
    List (String × PyVal) × Except PyExc (Option PyVal) :=
  convert_nested_dict data "" cell

/-! ## Lemmas: dictionary primitives -/

theorem optOr_none {α : Type} (x : Option α) : optOr x Option.none = x := by
  cases x <;> rfl

theorem optOr_eq_none {α : Type} (x y : Option α) :
    optOr x y = Option.none ↔ x = Option.none ∧ y = Option.none := by
  cases x <;> simp [optOr]

theorem dictKeys_append {κ α : Type} (a b : List (κ × α)) :
    dictKeys (a ++ b) = dictKeys a ++ dictKeys b := List.map_append _ _ _

theorem dictFind_append {κ α : Type} [DecidableEq κ] (a b : List (κ × α)) (k : κ) :
    dictFind (a ++ b) k = optOr (dictFind a k) (dictFind b k) := by
  induction a with
  | nil => simp [dictFind, optOr]
  | cons q r ih => by_cases h : q.1 = k <;> simp [dictFind, h, optOr, ih]

theorem dictKeys_cons {κ α : Type} (q : κ × α) (r : List (κ × α)) :
    dictKeys (q :: r) = q.1 :: dictKeys r := rfl

theorem dictFind_eq_none {κ α : Type} [DecidableEq κ] (d : List (κ × α)) (k : κ) :
    dictFind d k = Option.none ↔ k ∉ dictKeys d := by
  induction d with
  | nil => simp [dictFind, dictKeys]
  | cons q r ih =>
      rw [dictKeys_cons]
      by_cases h : q.1 = k
      · subst h
        simp [dictFind]
      · rw [show dictFind (q :: r) k = dictFind r k by simp [dictFind, h], ih,
          List.mem_cons]
        have h2 : ¬ k = q.1 := fun hh => h hh.symm
        tauto

theorem mem_dictKeys_iff_find {κ α : Type} [DecidableEq κ] (d : List (κ × α)) (k : κ) :
    k ∈ dictKeys d ↔ dictFind d k ≠ Option.none := by
  rw [ne_eq, dictFind_eq_none, not_not]

theorem dictKeys_map_set_fun {κ α : Type} [DecidableEq κ]
    (d : List (κ × α)) (k : κ) (v : α) :
    dictKeys (d.map (fun q => if q.1 = k then (k, v) else q)) = dictKeys d := by
  unfold dictKeys
  rw [List.map_map]
  apply List.map_congr_left
  intro q _
  by_cases h : q.1 = k <;> simp [h]

theorem dictKeys_set {κ α : Type} [DecidableEq κ] (d : List (κ × α)) (k : κ) (v : α) :
    dictKeys (dictSet d k v) =
      if k ∈ dictKeys d then dictKeys d else dictKeys d ++ [k] := by
  by_cases h : k ∈ dictKeys d
  · simp only [dictSet, if_pos h, dictKeys_map_set_fun]
  · simp only [dictSet, if_neg h, dictKeys_append]
    rfl

theorem dictFind_map_set_self {κ α : Type} [DecidableEq κ]
    {d : List (κ × α)} {k : κ} (h : k ∈ dictKeys d) (v : α) :
    dictFind (d.map (fun q => if q.1 = k then (k, v) else q)) k = some v := by
  induction d with
  | nil => simp [dictKeys] at h
  | cons q r ih =>
      by_cases hq : q.1 = k
      · simp [dictFind, hq]
      · have h2 : k ∈ dictKeys r := by
          rcases (by simpa [dictKeys] using h : k = q.1 ∨ k ∈ dictKeys r) with h3 | h3
          · exact absurd h3.symm hq
          · exact h3
        simp [dictFind, hq, ih h2]

theorem dictFind_set_self {κ α : Type} [DecidableEq κ] (d : List (κ × α)) (k : κ) (v : α) :
    dictFind (dictSet d k v) k = some v := by
  by_cases h : k ∈ dictKeys d
  · simpa [dictSet, h] using dictFind_map_set_self h v
  · have hn : dictFind d k = Option.none := (dictFind_eq_none d k).2 h
    simp [dictSet, h, dictFind_append, hn, optOr, dictFind]

theorem dictFind_map_set_other {κ α : Type} [DecidableEq κ]
    (d : List (κ × α)) {k k2 : κ} (hk : k2 ≠ k) (v : α) :
    dictFind (d.map (fun q => if q.1 = k then (k, v) else q)) k2 = dictFind d k2 := by
  have hkk : ¬ k = k2 := fun hh => hk hh.symm
  induction d with
  | nil => rfl
  | cons q r ih =>
      by_cases hq : q.1 = k
      · simp [dictFind, hq, hkk, ih]
      · by_cases hq2 : q.1 = k2 <;> simp [dictFind, hq, hq2, hk, ih]

theorem dictFind_set_other {κ α : Type} [DecidableEq κ]
    (d : List (κ × α)) {k k2 : κ} (hk : k2 ≠ k) (v : α) :
    dictFind (dictSet d k v) k2 = dictFind d k2 := by
  by_cases h : k ∈ dictKeys d
  · simpa [dictSet, h] using dictFind_map_set_other d hk v
  · have hkk : ¬ k = k2 := fun hh => hk hh.symm
    have hone : dictFind [(k, v)] k2 = Option.none := by
      simp [dictFind, hkk]
    simp [dictSet, h, dictFind_append, hone, optOr_none]

theorem nodupKeys_set {κ α : Type} [DecidableEq κ]
    {d : List (κ × α)} (h : NodupKeys d) (k : κ) (v : α) : NodupKeys (dictSet d k v) := by
  unfold NodupKeys
  rw [dictKeys_set]
  by_cases hm : k ∈ dictKeys d
  · rwa [if_pos hm]
  · rw [if_neg hm, List.nodup_append]
    refine ⟨h, List.nodup_singleton k, ?_⟩
    intro a ha hb
    rw [List.mem_singleton] at hb
    exact hm (hb ▸ ha)

theorem dictSet_ne_nil {κ α : Type} [DecidableEq κ] (d : List (κ × α)) (k : κ) (v : α) :
    dictSet d k v ≠ [] := by
  by_cases hm : k ∈ dictKeys d
  · cases d with
    | nil => simp [dictKeys] at hm
    | cons q r => simp [dictSet, hm]
  · simp [dictSet, hm]

theorem dictUpdate_nil_right {κ α : Type} [DecidableEq κ] (a : List (κ × α)) :
    dictUpdate a [] = a := rfl

theorem dictUpdate_cons {κ α : Type} [DecidableEq κ]
    (a : List (κ × α)) (q : κ × α) (r : List (κ × α)) :
    dictUpdate a (q :: r) = dictUpdate (dictSet a q.1 q.2) r := rfl

theorem nodupKeys_update {κ α : Type} [DecidableEq κ]
    {a : List (κ × α)} (h : NodupKeys a) (b : List (κ × α)) :
    NodupKeys (dictUpdate a b) := by
  induction b generalizing a with
  | nil => exact h
  | cons q r ih => exact ih (nodupKeys_set h q.1 q.2)

theorem dictUpdate_ne_nil {κ α : Type} [DecidableEq κ]
    (a : List (κ × α)) {b : List (κ × α)} (hb : b ≠ []) : dictUpdate a b ≠ [] := by
  induction b generalizing a with
  | nil => exact absurd rfl hb
  | cons q r ih =>
      rw [dictUpdate_cons]
      cases r with
      | nil => exact dictSet_ne_nil a q.1 q.2
      | cons q2 r2 => exact ih (dictSet a q.1 q.2) (by simp)

theorem dictUpdate_eq_append {κ α : Type} [DecidableEq κ] :
    ∀ (l acc : List (κ × α)), NodupKeys l →
      (∀ k ∈ dictKeys l, k ∉ dictKeys acc) → dictUpdate acc l = acc ++ l
  | [], acc, _, _ => by simp [dictUpdate_nil_right]
  | q :: r, acc, hl, hf => by
      have hq : q.1 ∉ dictKeys acc :=
        hf q.1 (by rw [dictKeys_cons]; exact List.mem_cons_self _ _)
      have hset : dictSet acc q.1 q.2 = acc ++ [q] := by
        simp [dictSet, hq]
      have hl' : (q.1 :: dictKeys r).Nodup := by rw [← dictKeys_cons]; exact hl
      have hl2 : NodupKeys r := (List.nodup_cons.1 hl').2
      have hq2 : q.1 ∉ dictKeys r := (List.nodup_cons.1 hl').1
      have hfresh : ∀ k ∈ dictKeys r, k ∉ dictKeys (acc ++ [q]) := by
        intro k hk
        rw [dictKeys_append]
        intro hmem
        rcases List.mem_append.1 hmem with hka | hkq
        · exact hf k (by rw [dictKeys_cons]; exact List.mem_cons_of_mem _ hk) hka
        · have hk1 : k = q.1 := by
            rw [show dictKeys [q] = [q.1] from rfl, List.mem_singleton] at hkq
            exact hkq
          exact hq2 (hk1 ▸ hk)
      rw [dictUpdate_cons, hset, dictUpdate_eq_append r (acc ++ [q]) hl2 hfresh]
      simp

theorem dictUpdate_nil_of_nodup {κ α : Type} [DecidableEq κ]
    {l : List (κ × α)} (h : NodupKeys l) : dictUpdate [] l = l := by
  simpa using dictUpdate_eq_append l [] h (by simp [dictKeys])

theorem dictFind_update {κ α : Type} [DecidableEq κ] :
    ∀ (b a : List (κ × α)), NodupKeys b → ∀ k,
      dictFind (dictUpdate a b) k = optOr (dictFind b k) (dictFind a k)
  | [], a, _, k => by simp [dictUpdate_nil_right, dictFind, optOr]
  | q :: r, a, hb, k => by
      have hr : NodupKeys r := ((List.nodup_cons).1 hb).2
      have hq : q.1 ∉ dictKeys r := ((List.nodup_cons).1 hb).1
      rw [dictUpdate_cons, dictFind_update r (dictSet a q.1 q.2) hr k]
      by_cases hqk : q.1 = k
      · have hnone : dictFind r k = Option.none :=
          (dictFind_eq_none r k).2 (hqk ▸ hq)
        simp [dictFind, hqk, hnone, optOr, hqk ▸ dictFind_set_self a q.1 q.2]
      · simp [dictFind, hqk, dictFind_set_other a (fun hh => hqk hh.symm) q.2]

theorem dict_merge_find {κ α : Type} [DecidableEq κ]
    {a b : List (κ × α)} (ha : NodupKeys a) (hb : NodupKeys b) (k : κ) :
    dictFind (dict_merge a b) k = optOr (dictFind b k) (dictFind a k) := by
  rw [dict_merge, dictUpdate_nil_of_nodup ha, dictFind_update b a hb k]

theorem dict_merge_eq_append {κ α : Type} [DecidableEq κ]
    {a b : List (κ × α)} (ha : NodupKeys a) (hb : NodupKeys b)
    (hd : ∀ k ∈ dictKeys b, k ∉ dictKeys a) : dict_merge a b = a ++ b := by
  rw [dict_merge, dictUpdate_nil_of_nodup ha, dictUpdate_eq_append b a hb hd]

theorem dict_merge_mem_keys {κ α : Type} [DecidableEq κ]
    {a b : List (κ × α)} (ha : NodupKeys a) (hb : NodupKeys b) (k : κ) :
    k ∈ dictKeys (dict_merge a b) ↔ k ∈ dictKeys a ∨ k ∈ dictKeys b := by
  rw [mem_dictKeys_iff_find, dict_merge_find ha hb, ne_eq, optOr_eq_none,
    mem_dictKeys_iff_find, mem_dictKeys_iff_find]
  tauto

theorem foldl_merge_singleton {κ α : Type} [DecidableEq κ] :
    ∀ (rest acc : List (κ × α)), NodupKeys acc →
      rest.foldl (fun a q => dict_merge a [q]) acc = dictUpdate acc rest
  | [], acc, _ => rfl
  | q :: r, acc, hacc => by
      have hone : dict_merge acc [q] = dictSet acc q.1 q.2 := by
        rw [dict_merge, dictUpdate_nil_of_nodup hacc]; rfl
      rw [List.foldl_cons, hone,
        foldl_merge_singleton r (dictSet acc q.1 q.2) (nodupKeys_set hacc q.1 q.2),
        dictUpdate_cons]

theorem reduceSingletons_eq : ∀ l : List (String × PyVal),
    reduceSingletons l = dictUpdate [] l
  | [] => rfl
  | p :: rest => by
      have h1 : NodupKeys [p] := by simp [NodupKeys, dictKeys]
      show rest.foldl _ [p] = _
      rw [foldl_merge_singleton rest [p] h1, dictUpdate_cons]
      have : dictSet ([] : List (String × PyVal)) p.1 p.2 = [p] := by
        simp [dictSet, dictKeys]
      rw [this]

/-! ## Lemmas: the flattener on all-numeric structures -/

theorem sumVals_nil : sumVals [] = 0 := rfl

theorem sumVals_cons (q : String × PyVal) (r : List (String × PyVal)) :
    sumVals (q :: r) = valInt q.2 + sumVals r := by
  simp [sumVals]

theorem sumVals_append (a b : List (String × PyVal)) :
    sumVals (a ++ b) = sumVals a + sumVals b := by
  simp [sumVals]

/-- On an all-numeric field list the loop succeeds and appends exactly the
pairs described by `emitF`, in order, regardless of the incoming
accumulator. -/
theorem convert_fields_emit : ∀ fs : List (String × PyVal), allNumF fs = true →
    ∀ (pre : String) (vs : List (String × PyVal)),
      convert_nested_fields fs pre vs = (vs ++ emitF fs pre, .ok ())
  | [], _, pre, vs => by simp [convert_nested_fields, emitF]
  | (key, .num n) :: rest, h, pre, vs => by
      have hrest : allNumF rest = true := by
        simpa [allNumF, allNum] using h
      simp [convert_nested_fields, convert_nested_dict, is_numeric, emitF, emitEntry,
        convert_fields_emit rest hrest pre]
  | (key, .bool b) :: rest, h, pre, vs => by simp [allNumF, allNum] at h
  | (key, .str s) :: rest, h, pre, vs => by simp [allNumF, allNum] at h
  | (key, .null) :: rest, h, pre, vs => by simp [allNumF, allNum] at h
  | (key, .dict fs2) :: rest, h, pre, vs => by
      have h2 : fs2.isEmpty = false ∧ allNumF fs2 = true := by
        have := h
        simp [allNumF, allNum] at this
        exact ⟨by simpa using this.1.1, this.1.2⟩
      have hrest : allNumF rest = true := by
        have := h
        simp [allNumF, allNum] at this
        exact this.2
      have hsub := convert_fields_emit fs2 h2.2
        (if pre = "" then key else pre ++ "__" ++ key) vs
      have hrec := convert_fields_emit rest hrest pre
        (vs ++ emitF fs2 (if pre = "" then key else pre ++ "__" ++ key))
      by_cases he :
          (vs ++ emitF fs2 (if pre = "" then key else pre ++ "__" ++ key)).isEmpty <;>
        simp [convert_nested_fields, convert_nested_dict, h2.1, hsub, he, is_numeric,
          hrec, emitF, emitEntry]

/-- An all-numeric non-empty structure emits at least one pair. -/
theorem emitF_ne_nil : ∀ fs : List (String × PyVal), allNumF fs = true → fs ≠ [] →
    ∀ pre, emitF fs pre ≠ []
  | [], _, h2, _ => absurd rfl h2
  | (key, .num n) :: rest, _, _, pre => by simp [emitF, emitEntry]
  | (key, .bool b) :: rest, h, _, pre => by simp [allNumF, allNum] at h
  | (key, .str s) :: rest, h, _, pre => by simp [allNumF, allNum] at h
  | (key, .null) :: rest, h, _, pre => by simp [allNumF, allNum] at h
  | (key, .dict fs2) :: rest, h, _, pre => by
      have h2 : fs2.isEmpty = false ∧ allNumF fs2 = true := by
        have := h
        simp [allNumF, allNum] at this
        exact ⟨by simpa using this.1.1, this.1.2⟩
      have hne : fs2 ≠ [] := by
        intro hh
        rw [hh] at h2
        simp [List.isEmpty] at h2
      have hsub := emitF_ne_nil fs2 h2.2 hne
        (if pre = "" then key else pre ++ "__" ++ key)
      have hne3 : emitF ((key, PyVal.dict fs2) :: rest) pre =
          emitF fs2 (if pre = "" then key else pre ++ "__" ++ key) ++ emitF rest pre := rfl
      rw [hne3]
      intro hcontra
      exact hsub (List.append_eq_nil.1 hcontra).1

/-- Flattening an all-numeric non-empty dictionary: the accumulator grows
by the emitted pairs and the returned value is their last-write-wins
merge. -/
theorem convert_dict_emit {fs : List (String × PyVal)} (h : allNumF fs = true)
    (hne : fs ≠ []) (pre : String) (vs : List (String × PyVal)) :
    convert_nested_dict (.dict fs) pre vs =
      (vs ++ emitF fs pre,
        .ok (some (.dict (reduceSingletons (vs ++ emitF fs pre))))) := by
  have hemp : fs.isEmpty = false := by
    cases fs with
    | nil => exact absurd rfl hne
    | cons q r => rfl
  have hloop := convert_fields_emit fs h pre vs
  have hne2 : (vs ++ emitF fs pre).isEmpty = false := by
    have := emitF_ne_nil fs h hne pre
    cases hvs : vs ++ emitF fs pre with
    | nil => exact absurd (List.append_eq_nil.1 hvs).2 this
    | cons q r => rfl
  simp [convert_nested_dict, hemp, hloop, hne2]

/-- The emitted values sum to the leaf sum. -/
theorem sumVals_emitF : ∀ fs : List (String × PyVal), allNumF fs = true →
    ∀ pre, sumVals (emitF fs pre) = leavesSumF fs
  | [], _, _ => rfl
  | (key, .num n) :: rest, h, pre => by
      have hrest : allNumF rest = true := by simpa [allNumF, allNum] using h
      simp [emitF, emitEntry, sumVals_append, sumVals_cons, sumVals_nil, valInt,
        leavesSumF, leavesSum, sumVals_emitF rest hrest pre]
  | (key, .bool b) :: rest, h, pre => by simp [allNumF, allNum] at h
  | (key, .str s) :: rest, h, pre => by simp [allNumF, allNum] at h
  | (key, .null) :: rest, h, pre => by simp [allNumF, allNum] at h
  | (key, .dict fs2) :: rest, h, pre => by
      have h2 : allNumF fs2 = true := by
        have := h
        simp [allNumF, allNum] at this
        exact this.1.2
      have hrest : allNumF rest = true := by
        have := h
        simp [allNumF, allNum] at this
        exact this.2
      simp [emitF, emitEntry, sumVals_append, leavesSumF, leavesSum,
        sumVals_emitF fs2 h2 (if pre = "" then key else pre ++ "__" ++ key),
        sumVals_emitF rest hrest pre]

/-- Every emitted value of an all-numeric structure is a number. -/
theorem emitF_vals_num : ∀ fs : List (String × PyVal), allNumF fs = true →
    ∀ pre, ∀ q ∈ emitF fs pre, ∃ n : Int, q.2 = PyVal.num n
  | [], _, _, q, hq => by simp [emitF] at hq
  | (key, .num n) :: rest, h, pre, q, hq => by
      have hrest : allNumF rest = true := by simpa [allNumF, allNum] using h
      rcases (by simpa [emitF, emitEntry] using hq :
          q = (if pre = "" then key else pre ++ "__" ++ key, PyVal.num n) ∨
            q ∈ emitF rest pre) with h1 | h1
      · exact ⟨n, by rw [h1]⟩
      · exact emitF_vals_num rest hrest pre q h1
  | (key, .bool b) :: rest, h, pre, q, hq => by simp [allNumF, allNum] at h
  | (key, .str s) :: rest, h, pre, q, hq => by simp [allNumF, allNum] at h
  | (key, .null) :: rest, h, pre, q, hq => by simp [allNumF, allNum] at h
  | (key, .dict fs2) :: rest, h, pre, q, hq => by
      have h2 : allNumF fs2 = true := by
        have := h
        simp [allNumF, allNum] at this
        exact this.1.2
      have hrest : allNumF rest = true := by
        have := h
        simp [allNumF, allNum] at this
        exact this.2
      rcases (by simpa [emitF, emitEntry] using hq :
          q ∈ emitF fs2 (if pre = "" then key else pre ++ "__" ++ key) ∨
            q ∈ emitF rest pre) with h1 | h1
      · exact emitF_vals_num fs2 h2 _ q h1
      · exact emitF_vals_num rest hrest pre q h1

/-- Python `sum` over the values of a list of numeric pairs. -/
theorem pySumGo_num : ∀ (l : List (String × PyVal)),
    (∀ q ∈ l, ∃ n : Int, q.2 = PyVal.num n) → ∀ acc : Int,
      pySumGo acc (l.map Prod.snd) = .ok (acc + sumVals l)
  | [], _, acc => by simp [pySumGo, sumVals_nil]
  | q :: r, h, acc => by
      obtain ⟨n, hn⟩ := h q (List.mem_cons_self _ _)
      have hr := pySumGo_num r (fun p hp => h p (List.mem_cons_of_mem _ hp)) (acc + n)
      simp [hn, pySumGo, hr, sumVals_cons, valInt]
      ring

theorem pySum_num {l : List (String × PyVal)}
    (h : ∀ q ∈ l, ∃ n : Int, q.2 = PyVal.num n) :
    pySum (l.map Prod.snd) = .ok (sumVals l) := by
  simpa using pySumGo_num l h 0

/-! ## Lemmas: the flattener on leafless (falsy) structures -/

/-- On a field list whose values contain no numeric leaf and only falsy
leaves, the loop completes without touching the accumulator. -/
theorem convert_fields_falsy : ∀ fs : List (String × PyVal), noNumFalsyF fs = true →
    ∀ (pre : String) (vs : List (String × PyVal)),
      convert_nested_fields fs pre vs = (vs, .ok ())
  | [], _, pre, vs => by simp [convert_nested_fields]
  | (key, .num n) :: rest, h, pre, vs => by simp [noNumFalsyF, noNumFalsy] at h
  | (key, .bool b) :: rest, h, pre, vs => by simp [noNumFalsyF, noNumFalsy] at h
  | (key, .str s) :: rest, h, pre, vs => by
      have hh := h
      simp [noNumFalsyF, noNumFalsy] at hh
      have hs : s = "" := hh.1
      have hrest : noNumFalsyF rest = true := hh.2
      subst hs
      simp [convert_nested_fields, convert_nested_dict, is_numeric,
        convert_fields_falsy rest hrest pre]
  | (key, .null) :: rest, h, pre, vs => by
      have hh := h
      simp [noNumFalsyF, noNumFalsy] at hh
      simp [convert_nested_fields, convert_nested_dict, is_numeric,
        convert_fields_falsy rest hh pre]
  | (key, .dict fs2) :: rest, h, pre, vs => by
      have hh := h
      simp [noNumFalsyF, noNumFalsy] at hh
      have h2 : noNumFalsyF fs2 = true := hh.1
      have hrest : noNumFalsyF rest = true := hh.2
      by_cases hemp : fs2.isEmpty
      · simp [convert_nested_fields, convert_nested_dict, hemp, is_numeric,
          convert_fields_falsy rest hrest pre]
      · have hsub := convert_fields_falsy fs2 h2
          (if pre = "" then key else pre ++ "__" ++ key) vs
        by_cases hvs : vs.isEmpty <;>
          simp [convert_nested_fields, convert_nested_dict, hemp, hsub, hvs,
            is_numeric, convert_fields_falsy rest hrest pre]

/-! ## Lemmas: the flattener on already-flat mappings -/

theorem flatNum_cons (q : String × PyVal) (r : List (String × PyVal)) :
    flatNum (q :: r) = (is_numeric q.2 && flatNum r) := by
  cases q
  rfl

/-- On an already-flat field list (numeric values only) the loop appends
the entries themselves: at the root the compound key of an entry is its
own key. -/
theorem convert_fields_flat : ∀ fs : List (String × PyVal), flatNum fs = true →
    ∀ vs : List (String × PyVal),
      convert_nested_fields fs "" vs = (vs ++ fs, .ok ())
  | [], _, vs => by simp [convert_nested_fields]
  | (key, v) :: rest, h, vs => by
      have hh := h
      rw [flatNum_cons, Bool.and_eq_true] at hh
      have hrec := convert_fields_flat rest hh.2 (vs ++ [(key, v)])
      cases v with
      | num n => simp [convert_nested_fields, convert_nested_dict, is_numeric, hrec]
      | bool b => simp [convert_nested_fields, convert_nested_dict, is_numeric, hrec]
      | str s => simp [is_numeric] at hh
      | null => simp [is_numeric] at hh
      | dict fs2 => simp [is_numeric] at hh

/-- Flattening a non-empty already-flat mapping, with a fresh
accumulator: the accumulator ends as the entries themselves and the
result is their last-write-wins merge. -/
theorem convert_dict_flat {fs : List (String × PyVal)} (h : flatNum fs = true)
    (hne : fs ≠ []) :
    convert_nested_dict (.dict fs) "" []
      = (fs, .ok (some (.dict (dictUpdate [] fs)))) := by
  have hemp : fs.isEmpty = false := by
    cases fs with
    | nil => exact absurd rfl hne
    | cons q r => rfl
  have hloop := convert_fields_flat fs h []
  rw [show ([] : List (String × PyVal)) ++ fs = fs from rfl] at hloop
  simp [convert_nested_dict, hemp, hloop, reduceSingletons_eq]

/-- Membership in the result of a subscript assignment. -/
theorem mem_dictSet {κ α : Type} [DecidableEq κ]
    {d : List (κ × α)} {k : κ} {v : α} {q : κ × α} (hq : q ∈ dictSet d k v) :
    q ∈ d ∨ q = (k, v) := by
  by_cases hm : k ∈ dictKeys d
  · rw [dictSet, if_pos hm] at hq
    rcases List.mem_map.1 hq with ⟨p, hp, hpq⟩
    by_cases hpk : p.1 = k
    · right
      rw [if_pos hpk] at hpq
      exact hpq.symm
    · left
      rw [if_neg hpk] at hpq
      exact hpq ▸ hp
  · rw [dictSet, if_neg hm] at hq
    rcases List.mem_append.1 hq with hq2 | hq2
    · exact Or.inl hq2
    · exact Or.inr (List.mem_singleton.1 hq2)

theorem flatNum_iff (l : List (String × PyVal)) :
    flatNum l = true ↔ ∀ q ∈ l, is_numeric q.2 = true := by
  induction l with
  | nil => simp [flatNum]
  | cons q r ih => rw [flatNum_cons, Bool.and_eq_true, ih]; simp

theorem flatNum_set {d : List (String × PyVal)} {k : String} {v : PyVal}
    (hd : flatNum d = true) (hv : is_numeric v = true) :
    flatNum (dictSet d k v) = true := by
  rw [flatNum_iff]
  intro q hq
  rcases mem_dictSet hq with h1 | h1
  · exact (flatNum_iff d).1 hd q h1
  · rw [h1]
    exact hv

theorem flatNum_update {a : List (String × PyVal)} (ha : flatNum a = true) :
    ∀ {l : List (String × PyVal)}, flatNum l = true → flatNum (dictUpdate a l) = true := by
  intro l
  induction l generalizing a with
  | nil => intro _; exact ha
  | cons q r ih =>
      intro hl
      rw [flatNum_cons, Bool.and_eq_true] at hl
      rw [dictUpdate_cons]
      exact ih (flatNum_set ha hl.1) hl.2

/-! ## Lemmas: retry behaviour of the HTTP wrapper -/

/-- One-step unfolding of `get_response_go`. -/
theorem get_response_go_eq (net : Nat → Option PyObj) (a : Nat) : ∀ m : Nat,
    get_response_go net a m =
      match net a with
      | some r => (a + 1, Except.ok r)
      | Option.none =>
          match m with
          | mm + 1 => get_response_go net (a + 1) mm
          | 0 => (a + 1, Except.error PyExc.valueError)
  | 0 => rfl
  | _ + 1 => rfl

/-- If the first success is within `max_retries` retries of the starting
attempt, the wrapper returns that response. -/
theorem get_response_go_first_success (net : Nat → Option PyObj) (r : PyObj) :
    ∀ (k m a : Nat), k ≤ m → (∀ j, j < k → net (a + j) = Option.none) →
      net (a + k) = some r → (get_response_go net a m).2 = .ok r
  | 0, m, a, _, _, hk => by
      have ha : net a = some r := by simpa using hk
      rw [get_response_go_eq, ha]
  | k + 1, m, a, hle, h0, hk => by
      have ha : net a = Option.none := by simpa using h0 0 (Nat.succ_pos k)
      match m, hle with
      | m + 1, hle =>
          have hrec := get_response_go_first_success net r k m (a + 1)
            (by omega)
            (fun j hj => by
              rw [show a + 1 + j = a + (j + 1) by omega]
              exact h0 (j + 1) (by omega))
            (by
              rw [show a + 1 + k = a + (k + 1) by omega]
              exact hk)
          rw [show get_response_go net a (m + 1) = get_response_go net (a + 1) m by
            rw [get_response_go_eq, ha]]
          exact hrec

/-- If every attempt up to the bound fails at connection level, the
wrapper raises `ValueError` after consuming all of them. -/
theorem get_response_go_all_fail {net : Nat → Option PyObj} :
    ∀ (m a : Nat), (∀ j, j ≤ m → net (a + j) = Option.none) →
      get_response_go net a m = (a + m + 1, .error .valueError)
  | 0, a, h => by
      have ha : net a = Option.none := by simpa using h 0 (Nat.le_refl 0)
      rw [get_response_go_eq, ha]
  | m + 1, a, h => by
      have ha : net a = Option.none := by simpa using h 0 (Nat.zero_le _)
      have hrec := get_response_go_all_fail m (a + 1) (fun j hj => by
        rw [show a + 1 + j = a + (j + 1) by omega]
        exact h (j + 1) (by omega))
      rw [show get_response_go net a (m + 1) = get_response_go net (a + 1) m by
        rw [get_response_go_eq, ha], hrec,
        show a + 1 + m + 1 = a + (m + 1) + 1 from by omega]

/-- One-step unfolding of `get_point_go`. -/
theorem get_point_go_eq (net : Nat → Option PyObj) (a : Nat) : ∀ mr : Nat,
    get_point_go net a mr =
      match get_response_go net a 5 with
      | (a2, .ok data) => get_point_shape a2 data
      | (a2, .error e) =>
          match e with
          | .connectionError =>
              match mr with
              | m + 1 => get_point_go net a2 m
              | 0 => (a2, .ok [("error", .str "max_retries")])
          | _ => (a2, .error .unboundLocalError)
  | 0 => rfl
  | _ + 1 => rfl

/-- A transport that fails on every attempt drives `get_point` into its
generic handler, which itself raises `UnboundLocalError` because the
local `response` variable was never bound. -/
theorem get_point_all_fail {net : Nat → Option PyObj}
    (h : ∀ j, net j = Option.none) :
    get_point net = (6, .error .unboundLocalError) := by
  have h5 := get_response_go_all_fail 5 0 (fun j _ => h (0 + j))
  unfold get_point
  rw [get_point_go_eq, h5]

/-! ## Lemmas: joblib re-association -/

/-- Looking a position up in a completion order that is a permutation of a
keyed list with distinct keys gives the same answer. -/
theorem dictFind_perm {κ α : Type} [DecidableEq κ] {l1 l2 : List (κ × α)}
    (h : l1.Perm l2) : NodupKeys l1 → ∀ k, dictFind l1 k = dictFind l2 k := by
  induction h with
  | nil => intro _ _; rfl
  | cons x h ih =>
      intro hn k
      unfold NodupKeys at hn
      rw [dictKeys_cons] at hn
      have hn2 := (List.nodup_cons.1 hn).2
      by_cases hx : x.1 = k <;> simp [dictFind, hx, ih hn2 k]
  | swap x y l =>
      intro hn k
      unfold NodupKeys at hn
      rw [dictKeys_cons, dictKeys_cons] at hn
      have hxy : y.1 ≠ x.1 := by
        intro hh
        exact (List.nodup_cons.1 hn).1 (by rw [hh]; exact List.mem_cons_self _ _)
      by_cases hy : y.1 = k
      · have hx : ¬ x.1 = k := by
          intro hh
          exact hxy (by rw [hy, hh])
        simp [dictFind, hy, hx]
      · by_cases hx : x.1 = k <;> simp [dictFind, hy, hx]
  | trans h1 h2 ih1 ih2 =>
      intro hn k
      have hm := ((h1.map Prod.fst).nodup_iff).1 hn
      rw [ih1 hn k, ih2 hm k]

theorem dictFind_tagFrom {α : Type} :
    ∀ (L : List α) (s i : Nat), dictFind (tagFrom s L) (s + i) = L[i]?
  | [], s, i => by simp [tagFrom, dictFind]
  | o :: rest, s, 0 => by simp [tagFrom, dictFind]
  | o :: rest, s, i + 1 => by
      have hne : ¬ s = s + (i + 1) := by omega
      have hrec := dictFind_tagFrom rest (s + 1) i
      rw [show s + (i + 1) = s + 1 + i by omega]
      simp only [tagFrom, dictFind]
      rw [if_neg (by omega : ¬ s = s + 1 + i), hrec]
      simp

theorem dictKeys_tagFrom {α : Type} :
    ∀ (L : List α) (s : Nat), dictKeys (tagFrom s L) = List.range' s L.length
  | [], s => by simp [tagFrom, dictKeys]
  | o :: rest, s => by
      rw [show tagFrom s (o :: rest) = (s, o) :: tagFrom (s + 1) rest from rfl,
        dictKeys_cons, dictKeys_tagFrom rest (s + 1)]
      simp [List.range'_succ]

theorem nodupKeys_tagFrom {α : Type} (L : List α) (s : Nat) :
    NodupKeys (tagFrom s L) := by
  unfold NodupKeys
  rw [dictKeys_tagFrom]
  exact List.nodup_range' _ _

/-- Gathering positions `s, s+1, ...` out of any list that answers like
the tagged original reconstructs the original list. -/
theorem collectFrom_eq : ∀ (L : List RecOut) (c : List (Nat × RecOut)) (s : Nat),
    (∀ i, i < L.length → dictFind c (s + i) = L[i]?) →
    collectFrom c s L.length = some L
  | [], c, s, _ => rfl
  | o :: rest, c, s, h => by
      have h0 : dictFind c s = some o := by simpa using h 0 (by simp)
      have hrec := collectFrom_eq rest c (s + 1) (fun i hi => by
        have hh := h (i + 1) (by simpa using Nat.succ_lt_succ hi)
        rw [show s + (i + 1) = s + 1 + i by omega] at hh
        simpa using hh)
      simp [collectFrom, h0, hrec]

/-! ## Lemmas: consumption potential -/

theorem emitF_single (c : String) (v : PyVal) : emitF [(c, v)] "" = emitEntry v c := by
  simp [emitF]

theorem emitEntry_vals_num {v : PyVal} (hv : allNum v = true) (c : String) :
    ∀ q ∈ emitEntry v c, ∃ n : Int, q.2 = PyVal.num n := by
  cases v with
  | num n => intro q hq; exact ⟨n, by simpa [emitEntry] using congrArg Prod.snd (List.mem_singleton.1 hq)⟩
  | bool b => simp [allNum] at hv
  | str s => simp [allNum] at hv
  | null => simp [allNum] at hv
  | dict fs =>
      have h2 : allNumF fs = true := by
        simp [allNum] at hv
        exact hv.2
      intro q hq
      exact emitF_vals_num fs h2 c q (by simpa [emitEntry] using hq)

theorem sumVals_emitEntry {v : PyVal} (hv : allNum v = true) (c : String) :
    sumVals (emitEntry v c) = leavesSum v := by
  cases v with
  | num n => simp [emitEntry, sumVals_cons, sumVals_nil, valInt, leavesSum]
  | bool b => simp [allNum] at hv
  | str s => simp [allNum] at hv
  | null => simp [allNum] at hv
  | dict fs =>
      have h2 : allNumF fs = true := by
        simp [allNum] at hv
        exact hv.2
      rw [show emitEntry (PyVal.dict fs) c = emitF fs c from rfl,
        sumVals_emitF fs h2 c]
      rfl

theorem dictKeys_potentialOut (c : String) (v : PyVal) :
    dictKeys (potentialOut c v) = catOutKeys c v := by
  rw [potentialOut, catOutKeys, dictKeys_append]
  rfl

/-- `reduce_potential` on an all-numeric category without internal key
collisions: the flattened entries followed by the total key. -/
theorem reduce_potential_allnum {c : String} {v : PyVal} (hv : allNum v = true)
    (hkeys : (catOutKeys c v).Nodup) :
    reduce_potential c v = .ok (potentialOut c v) := by
  have hnodup : (dictKeys (emitEntry v c)).Nodup := by
    rw [catOutKeys, List.nodup_append] at hkeys
    exact hkeys.1
  have hfresh : (c ++ "__total") ∉ dictKeys (emitEntry v c) := by
    rw [catOutKeys, List.nodup_append] at hkeys
    intro hmem
    exact hkeys.2.2 hmem (List.mem_singleton.2 rfl)
  have hfs : allNumF [(c, v)] = true := by
    simp [allNumF, hv]
  have hcnv := convert_dict_emit hfs (List.cons_ne_nil _ _) "" []
  rw [show ([] : List (String × PyVal)) ++ emitF [(c, v)] "" = emitEntry v c by
      rw [emitF_single]; rfl] at hcnv
  have hred : reduceSingletons (emitEntry v c) = emitEntry v c := by
    rw [reduceSingletons_eq, dictUpdate_nil_of_nodup hnodup]
  rw [hred] at hcnv
  have hsum := pySum_num (emitEntry_vals_num hv c)
  rw [sumVals_emitEntry hv c] at hsum
  have hset : dictSet (emitEntry v c) (c ++ "__total") (.num (leavesSum v))
      = potentialOut c v := by
    rw [dictSet, if_neg hfresh, potentialOut]
  simp [reduce_potential, hcnv, hsum, hset]

/-- The fold of `reduce(dict_merge, ...)` concatenates the per-category
dictionaries when all emitted keys are distinct. -/
theorem reduce_potentials_go_concat :
    ∀ (rest : List (String × PyVal)) (acc : PyObj),
      (∀ p ∈ rest, allNum p.2 = true) → NodupKeys acc →
      (dictKeys acc ++ (rest.flatMap fun p => catOutKeys p.1 p.2)).Nodup →
      reduce_potentials_go rest acc =
        .ok (acc ++ rest.flatMap fun p => potentialOut p.1 p.2)
  | [], acc, _, _, _ => by simp [reduce_potentials_go]
  | (c, v) :: rest, acc, hnum, hacc, hglob => by
      rw [List.flatMap_cons] at hglob
      have hv : allNum v = true := hnum (c, v) (List.mem_cons_self _ _)
      have hparts := List.nodup_append.1 hglob
      have hparts2 := List.nodup_append.1 hparts.2.1
      have hseg : (catOutKeys c v).Nodup := hparts2.1
      have hred := reduce_potential_allnum hv hseg
      have hpotnodup : NodupKeys (potentialOut c v) := by
        unfold NodupKeys
        rw [dictKeys_potentialOut]
        exact hseg
      have hdisj : ∀ k ∈ dictKeys (potentialOut c v), k ∉ dictKeys acc := by
        intro k hk
        rw [dictKeys_potentialOut] at hk
        intro hka
        exact hparts.2.2 hka (List.mem_append.2 (Or.inl hk))
      have hmerge : dict_merge acc (potentialOut c v) = acc ++ potentialOut c v :=
        dict_merge_eq_append hacc hpotnodup hdisj
      have hacc2 : NodupKeys (acc ++ potentialOut c v) := by
        unfold NodupKeys
        rw [dictKeys_append, dictKeys_potentialOut, List.nodup_append]
        refine ⟨hacc, hseg, ?_⟩
        intro a ha hb
        exact hparts.2.2 ha (List.mem_append.2 (Or.inl hb))
      have hglob2 : (dictKeys (acc ++ potentialOut c v) ++
          (rest.flatMap fun p => catOutKeys p.1 p.2)).Nodup := by
        rw [dictKeys_append, dictKeys_potentialOut, List.append_assoc]
        exact hglob
      have hrec := reduce_potentials_go_concat rest (acc ++ potentialOut c v)
        (fun p hp => hnum p (List.mem_cons_of_mem _ hp)) hacc2 hglob2
      rw [show reduce_potentials_go ((c, v) :: rest) acc =
          match reduce_potential c v with
          | .error e => .error e
          | .ok d => reduce_potentials_go rest (dict_merge acc d) from rfl,
        hred, List.flatMap_cons, ← List.append_assoc]
      show reduce_potentials_go rest (dict_merge acc (potentialOut c v)) =
        .ok (acc ++ potentialOut c v ++ rest.flatMap fun p => potentialOut p.1 p.2)
      rw [hmerge]
      exact hrec

/-- `reduce_potentials` on an all-numeric collision-free response is the
concatenation of the per-category outputs. -/
theorem reduce_potentials_concat {dps : PyObj} (hne : dps ≠ [])
    (hnum : ∀ p ∈ dps, allNum p.2 = true) (hkeys : (allCatKeys dps).Nodup) :
    reduce_potentials dps = .ok (dps.flatMap fun p => potentialOut p.1 p.2) := by
  match dps, hne with
  | (c, v) :: rest, _ =>
      rw [allCatKeys, List.flatMap_cons] at hkeys
      have hv : allNum v = true := hnum (c, v) (List.mem_cons_self _ _)
      have hparts := List.nodup_append.1 hkeys
      have hred := reduce_potential_allnum hv hparts.1
      have hpotnodup : NodupKeys (potentialOut c v) := by
        unfold NodupKeys
        rw [dictKeys_potentialOut]
        exact hparts.1
      have hglob : (dictKeys (potentialOut c v) ++
          (rest.flatMap fun p => catOutKeys p.1 p.2)).Nodup := by
        rw [dictKeys_potentialOut]
        exact hkeys
      have hrec := reduce_potentials_go_concat rest (potentialOut c v)
        (fun p hp => hnum p (List.mem_cons_of_mem _ hp)) hpotnodup hglob
      rw [show reduce_potentials ((c, v) :: rest) =
          match reduce_potential c v with
          | .error e => .error e
          | .ok first => reduce_potentials_go rest first from rfl, hred]
      rw [List.flatMap_cons]
      exact hrec

theorem str_append_cancel {pre a b : String} (h : pre ++ a = pre ++ b) : a = b := by
  have hd : (pre ++ a).data = (pre ++ b).data := by rw [h]
  rw [String.data_append, String.data_append] at hd
  have h2 := List.append_cancel_left hd
  cases a
  cases b
  exact congrArg String.mk h2

/-- Uniform prefixing commutes with lookup. -/
theorem dictFind_map_pre (pre : String) :
    ∀ (l : PyObj) (k : String),
      dictFind (l.map fun kv => (pre ++ kv.1, kv.2)) (pre ++ k) = dictFind l k
  | [], _ => rfl
  | (k0, v0) :: rest, k => by
      by_cases hk : k0 = k
      · subst hk
        simp [dictFind]
      · have hne : ¬ (pre ++ k0 = pre ++ k) := fun hh => hk (str_append_cancel hh)
        simp [dictFind, hk, hne, dictFind_map_pre pre rest k]

theorem dictFind_single_self {κ α : Type} [DecidableEq κ] (k : κ) (v : α) :
    dictFind [(k, v)] k = some v := by
  simp [dictFind]

/-- The total key of a member category looks up to that category's leaf
sum in the concatenated output. -/
theorem dictFind_flatMap_total :
    ∀ (dps : PyObj), (allCatKeys dps).Nodup →
      ∀ p ∈ dps, dictFind (dps.flatMap fun q => potentialOut q.1 q.2)
          (p.1 ++ "__total") = some (.num (leavesSum p.2))
  | [], _, p, hp => absurd hp (List.not_mem_nil p)
  | (c, v) :: rest, hkeys, p, hp => by
      rw [allCatKeys, List.flatMap_cons] at hkeys
      have hparts := List.nodup_append.1 hkeys
      rw [List.flatMap_cons, dictFind_append]
      rcases List.mem_cons.1 hp with hphead | hptail
      · subst hphead
        have hfresh : (c ++ "__total") ∉ dictKeys (emitEntry v c) := by
          have h1 := hparts.1
          rw [catOutKeys, List.nodup_append] at h1
          intro hmem
          exact h1.2.2 hmem (List.mem_singleton.2 rfl)
        show optOr (dictFind (potentialOut c v) (c ++ "__total"))
            (dictFind (rest.flatMap fun q => potentialOut q.1 q.2) (c ++ "__total"))
            = some (.num (leavesSum v))
        rw [potentialOut, dictFind_append, (dictFind_eq_none _ _).2 hfresh,
          show optOr Option.none
              (dictFind [(c ++ "__total", PyVal.num (leavesSum v))] (c ++ "__total"))
            = dictFind [(c ++ "__total", PyVal.num (leavesSum v))] (c ++ "__total")
            from rfl,
          dictFind_single_self]
        rfl
      · have hktot : (p.1 ++ "__total") ∈ allCatKeys rest := by
          rw [allCatKeys, List.mem_flatMap]
          exact ⟨p, hptail, by rw [catOutKeys, List.mem_append]
                               exact Or.inr (List.mem_singleton.2 rfl)⟩
        have hnothead : (p.1 ++ "__total") ∉ dictKeys (potentialOut c v) := by
          rw [dictKeys_potentialOut]
          intro hmem
          exact hparts.2.2 hmem hktot
        rw [(dictFind_eq_none _ _).2 hnothead]
        have hrec := dictFind_flatMap_total rest hparts.2.1 p hptail
        rw [show optOr Option.none
            (dictFind (rest.flatMap fun q => potentialOut q.1 q.2) (p.1 ++ "__total"))
            = dictFind (rest.flatMap fun q => potentialOut q.1 q.2) (p.1 ++ "__total")
          from rfl, hrec]

/-! ## Claim theorems -/

/-- C1: the spec says that when the geocode result reports an error the
per-record orchestrator short-circuits and returns only that error
*stored under the record index*.  The code short-circuits and returns
only the error, but at the top level of the returned dictionary, not
under the index: evaluating `enrich_cep` for record index 7 on a geocode
response with an `error` field yields a dictionary whose single key is
the string `geocoder_error` and whose keys do not contain index 7, while
every other return path of `enrich_cep` is keyed by the index. -/
theorem claim_C1_geocoder_error_not_under_index :
    enrich_cep 7 (get_point (fun _ => some [("error", .str "ZipCode not found")])).2
        (fun _ _ => .ok [("renda_domiciliar_provavel", .num 10)])
      = [(.key "geocoder_error", .str "ZipCode not found")] ∧
    RecKey.idx 7 ∉ dictKeys (enrich_cep 7
        (get_point (fun _ => some [("error", .str "ZipCode not found")])).2
        (fun _ _ => .ok [("renda_domiciliar_provavel", .num 10)])) := by
  refine ⟨rfl, ?_⟩
  decide

/-- C2: `get_response` retries connection-level failures up to its fixed
bound of 5 retries.  If some attempt with index at most 5 succeeds, the
wrapper returns that response; if attempts 0 through 5 all fail at
connection level, it raises `ValueError` — never a silent success or
empty result. -/
theorem claim_C2_get_response_retry :
    (∀ (net : Nat → Option PyObj) (r : PyObj) (k : Nat), k ≤ 5 →
        (∀ j, j < k → net j = Option.none) → net k = some r →
        (get_response net).2 = .ok r) ∧
    (∀ net : Nat → Option PyObj, (∀ j, j ≤ 5 → net j = Option.none) →
        (get_response net).2 = .error .valueError) := by
  constructor
  · intro net r k hk h0 hks
    unfold get_response
    exact get_response_go_first_success net r k 5 0 hk
      (fun j hj => by simpa using h0 j hj) (by simpa using hks)
  · intro net h
    unfold get_response
    rw [get_response_go_all_fail 5 0 (fun j hj => by simpa using h j hj)]

/-- C2 witness: a transport failing on attempts 0 and 1 and succeeding on
attempt 2 yields the successful body; a transport failing on every
attempt yields `ValueError`. -/
theorem claim_C2_witness :
    (get_response (fun i => if i = 2 then some [("latitude", .num 1)]
        else Option.none)).2 = .ok [("latitude", .num 1)] ∧
    (get_response (fun _ => Option.none)).2 = .error .valueError := by
  constructor
  · exact claim_C2_get_response_retry.1 _ _ 2 (by omega)
      (fun j hj => by
        match j with
        | 0 => rfl
        | 1 => rfl
        | n + 2 => exact absurd hj (by omega))
      rfl
  · exact claim_C2_get_response_retry.2 _ (fun j _ => rfl)

/-- C3 counterexample: the claim that flattening preserves the sum of all
numeric leaves fails when two paths collide after joining with the
double-underscore separator: the nested mapping with entries `a__b = 1`
and `a = (b = 2)` has leaf sum 3, but its flattening is the single entry
`a__b = 2`, whose value sum is 2. -/
theorem claim_C3_counterexample :
    (convert_nested_dict (.dict [("a__b", .num 1), ("a", .dict [("b", .num 2)])])
        "" []).2 = .ok (some (.dict [("a__b", .num 2)])) ∧
    sumVals [("a__b", .num 2)] = 2 ∧
    leavesSumF [("a__b", .num 1), ("a", .dict [("b", .num 2)])] = 3 ∧
    (2 : Int) ≠ 3 := by
  refine ⟨rfl, by decide, by decide, by decide⟩

/-- C3 amended: for every non-empty nested mapping whose leaves are all
numeric and whose flattened compound keys are pairwise distinct,
flattening with a fresh accumulator returns exactly the emitted
key-value pairs, and the sum of the flattened values equals the sum of
all numeric leaves. -/
theorem claim_C3_amended (fs : List (String × PyVal)) (h1 : allNumF fs = true)
    (h2 : fs ≠ []) (h3 : (dictKeys (emitF fs "")).Nodup) :
    (convert_nested_dict (.dict fs) "" []).2 = .ok (some (.dict (emitF fs ""))) ∧
    sumVals (emitF fs "") = leavesSumF fs := by
  have hc := convert_dict_emit h1 h2 "" []
  rw [show ([] : List (String × PyVal)) ++ emitF fs "" = emitF fs "" from rfl] at hc
  rw [reduceSingletons_eq, dictUpdate_nil_of_nodup h3] at hc
  exact ⟨by rw [hc], sumVals_emitF fs h1 ""⟩

/-- C3 witness: a concrete two-level numeric mapping without collisions. -/
theorem claim_C3_witness :
    (convert_nested_dict (.dict [("a", .num 1), ("b", .dict [("c", .num 2)])])
        "" []).2
      = .ok (some (.dict (emitF [("a", .num 1), ("b", .dict [("c", .num 2)])] ""))) ∧
    sumVals (emitF [("a", .num 1), ("b", .dict [("c", .num 2)])] "")
      = leavesSumF [("a", .num 1), ("b", .dict [("c", .num 2)])] :=
  claim_C3_amended _ (by decide) (List.cons_ne_nil _ _) (by decide)

/-- C4: the accumulator of `convert_nested_dict` is a mutable default
argument shared across invocations.  Two successive calls that omit the
`values` argument share the default list: the first call, on a mapping
with key `a`, returns that mapping and leaves the pair in the shared
cell; the second call, on an unrelated mapping with key `b`, returns a
mapping that still contains the entry `a = 1` originating from the first
call's input. -/
theorem claim_C4_shared_default :
    (convert_default_call (.dict [("a", .num 1)]) []).2
      = .ok (some (.dict [("a", .num 1)])) ∧
    (convert_default_call (.dict [("b", .num 2)])
        (convert_default_call (.dict [("a", .num 1)]) []).1).2
      = .ok (some (.dict [("a", .num 1), ("b", .num 2)])) ∧
    dictFind (convert_default_call (.dict [("b", .num 2)])
        (convert_default_call (.dict [("a", .num 1)]) []).1).1 "a"
      = some (.num 1) :=
  ⟨rfl, rfl, rfl⟩

/-- C5 counterexample: for the response mapping category `x` to the
numeric breakdown `1` and category `x__total` to `2`, the later
category's flattened key collides with the total key of category `x`,
so `consumption_potential__x__total` holds 2 instead of the leaf sum 1
of category `x`. -/
theorem claim_C5_counterexample :
    get_consumption_potential [("x", .num 1), ("x__total", .num 2)]
      = .ok [("consumption_potential__x", .num 1),
             ("consumption_potential__x__total", .num 2),
             ("consumption_potential__x__total__total", .num 2)] ∧
    leavesSum (PyVal.num 1) = 1 ∧
    dictFind [("consumption_potential__x", PyVal.num 1),
              ("consumption_potential__x__total", PyVal.num 2),
              ("consumption_potential__x__total__total", PyVal.num 2)]
        "consumption_potential__x__total" ≠ some (.num 1) := by
  refine ⟨rfl, rfl, ?_⟩
  intro h
  have h2 : some (PyVal.num 2) = some (PyVal.num 1) := h
  injection h2 with h3
  injection h3 with h4
  exact absurd h4 (by decide)

/-- C5 amended: for every non-empty API response mapping categories to
all-numeric nested breakdowns, provided all emitted keys (flattened
compound keys and per-category total keys) are pairwise distinct,
`get_consumption_potential` succeeds, every key of its output carries
the `consumption_potential__` prefix, and for each category `c` the key
`consumption_potential__c__total` holds the sum of the numeric leaves of
that category's breakdown. -/
theorem claim_C5_amended (dps : PyObj) (hne : dps ≠ [])
    (hnum : ∀ p ∈ dps, allNum p.2 = true)
    (hkeys : (allCatKeys dps).Nodup) :
    ∃ out, get_consumption_potential dps = .ok out ∧
      (∀ kv ∈ out, ∃ t, kv.1 = "consumption_potential__" ++ t) ∧
      (∀ p ∈ dps, dictFind out ("consumption_potential__" ++ (p.1 ++ "__total"))
          = some (.num (leavesSum p.2))) := by
  have hred := reduce_potentials_concat hne hnum hkeys
  refine ⟨(dps.flatMap fun p => potentialOut p.1 p.2).map
      (fun kv => ("consumption_potential__" ++ kv.1, kv.2)), ?_, ?_, ?_⟩
  · simp [get_consumption_potential, hred]
  · intro kv hkv
    rcases List.mem_map.1 hkv with ⟨kv0, _, hkv0⟩
    exact ⟨kv0.1, by rw [← hkv0]⟩
  · intro p hp
    rw [dictFind_map_pre]
    exact dictFind_flatMap_total dps hkeys p hp

/-- C5 witness: two categories, one nested and one bare numeric, without
key collisions. -/
theorem claim_C5_witness :
    ∃ out, get_consumption_potential
        [("tel", .dict [("a", .num 3), ("b", .num 4)]), ("tv", .num 7)]
      = .ok out ∧
      (∀ kv ∈ out, ∃ t, kv.1 = "consumption_potential__" ++ t) ∧
      (∀ p ∈ ([("tel", .dict [("a", .num 3), ("b", .num 4)]), ("tv", .num 7)] : PyObj),
          dictFind out ("consumption_potential__" ++ (p.1 ++ "__total"))
            = some (.num (leavesSum p.2))) :=
  claim_C5_amended _ (List.cons_ne_nil _ _) (by decide) (by decide)

/-- C6: flattening an already-flat mapping (all values numeric) is
idempotent: the first flattening returns some dictionary `d`, and
flattening `d` again, with a fresh accumulator, returns `d` itself. -/
theorem claim_C6_flat_idempotent (fs : List (String × PyVal))
    (h : flatNum fs = true) :
    ∃ d, (convert_nested_dict (.dict fs) "" []).2 = .ok (some (.dict d)) ∧
      (convert_nested_dict (.dict d) "" []).2 = .ok (some (.dict d)) := by
  match fs, h with
  | [], _ => exact ⟨[], rfl, rfl⟩
  | q :: rest, h =>
      have h1 := convert_dict_flat h (List.cons_ne_nil q rest)
      have hdflat : flatNum (dictUpdate [] (q :: rest)) = true :=
        flatNum_update (show flatNum [] = true from rfl) h
      have hdnodup : NodupKeys (dictUpdate [] (q :: rest)) :=
        nodupKeys_update
          (show NodupKeys ([] : List (String × PyVal)) from List.nodup_nil)
          (q :: rest)
      have hdne : dictUpdate [] (q :: rest) ≠ [] :=
        dictUpdate_ne_nil [] (List.cons_ne_nil q rest)
      have h2 := convert_dict_flat hdflat hdne
      have h3 : dictUpdate [] (dictUpdate [] (q :: rest)) = dictUpdate [] (q :: rest) :=
        dictUpdate_nil_of_nodup hdnodup
      exact ⟨dictUpdate [] (q :: rest), by rw [h1], by rw [h2, h3]⟩

/-- C6 witness: a concrete flat mapping. -/
theorem claim_C6_witness :
    ∃ d, (convert_nested_dict (.dict [("a", .num 1), ("b", .num 2)]) "" []).2
        = .ok (some (.dict d)) ∧
      (convert_nested_dict (.dict d) "" []).2 = .ok (some (.dict d)) :=
  claim_C6_flat_idempotent _ (by decide)

/-- C7: `dict_merge` of two valid dictionaries is their key-wise union
with last-write-wins: every lookup prefers the second dictionary, the
key set of the merge is the union of the key sets, and for disjoint key
sets the merge is exactly the concatenation. -/
theorem claim_C7_dict_merge {κ α : Type} [DecidableEq κ]
    (a b : List (κ × α)) (ha : NodupKeys a) (hb : NodupKeys b) :
    (∀ k, dictFind (dict_merge a b) k = optOr (dictFind b k) (dictFind a k)) ∧
    (∀ k, k ∈ dictKeys (dict_merge a b) ↔ k ∈ dictKeys a ∨ k ∈ dictKeys b) ∧
    ((∀ k ∈ dictKeys a, k ∉ dictKeys b) → dict_merge a b = a ++ b) := by
  refine ⟨dict_merge_find ha hb, dict_merge_mem_keys ha hb, ?_⟩
  intro hd
  exact dict_merge_eq_append ha hb (fun k hk hka => hd k hka hk)

/-- C7 witness: an overlapping merge takes the second dictionary's value
on the shared key, and a disjoint merge is the concatenation. -/
theorem claim_C7_witness :
    dictFind (dict_merge [(1, 10), (2, 20)] [(2, 99), (3, 30)]) 2
      = optOr (dictFind [(2, 99), (3, 30)] 2) (dictFind [(1, 10), (2, 20)] 2) ∧
    dict_merge [(1, 10)] [(2, 20)] = [(1, 10)] ++ [(2, 20)] := by
  constructor
  · exact (claim_C7_dict_merge [(1, 10), (2, 20)] [(2, 99), (3, 30)]
      (by decide) (by decide)).1 2
  · exact (claim_C7_dict_merge [(1, 10)] [(2, 20)]
      (by decide) (by decide)).2.2 (by decide)

/-- C8: for a fixed record list and a fixed deterministic per-record
function (one per-record result for each record, as fixed API responses
give), a parallel run whose completion order is any permutation of the
position-tagged sequential results produces the same output table as the
sequential run: joblib re-associates results to dispatch positions, and
the driver reduction then sees the same list. -/
theorem claim_C8_parallel_equals_sequential
    (records : List (Nat × String)) (enrich : Nat → String → RecOut)
    (completions : List (Nat × RecOut))
    (h : completions.Perm (tagFrom 0 (seqRun records enrich))) :
    parTable records completions = seqTable records enrich := by
  have hn : NodupKeys completions := by
    unfold NodupKeys
    exact ((h.map Prod.fst).nodup_iff).2 (nodupKeys_tagFrom (seqRun records enrich) 0)
  have hfind := dictFind_perm h hn
  have hlen : (seqRun records enrich).length = records.length := by
    simp [seqRun]
  have hcollect : collectFrom completions 0 records.length
      = some (seqRun records enrich) := by
    rw [← hlen]
    apply collectFrom_eq
    intro i hi
    rw [hfind (0 + i)]
    exact dictFind_tagFrom (seqRun records enrich) 0 i
  unfold parTable seqTable
  rw [hcollect]

/-- C8 witness: two records completing in reversed order yield the same
table as the sequential run. -/
theorem claim_C8_witness :
    parTable [(0, "01310-100"), (1, "00000-000")]
        [(1, [(RecKey.idx 1, PyVal.str "00000-000")]),
         (0, [(RecKey.idx 0, PyVal.str "01310-100")])]
      = seqTable [(0, "01310-100"), (1, "00000-000")]
          (fun i c => [(RecKey.idx i, PyVal.str c)]) := by
  exact claim_C8_parallel_equals_sequential _ _ _ (List.Perm.swap _ _ _)

/-- C9 counterexample: the claim says a non-empty mapping with no numeric
leaf — for example one whose values are non-empty non-numeric strings —
makes `convert_nested_dict` return `None`.  On that example the code
instead raises `AttributeError` (iterating `.items()` of a string), so
the caller receives an exception, not `None`. -/
theorem claim_C9_counterexample :
    convert_nested_dict (.dict [("a", .str "x")]) "" []
      = ([], .error .attributeError) ∧
    (convert_nested_dict (.dict [("a", .str "x")]) "" []).2 ≠ .ok Option.none := by
  refine ⟨rfl, ?_⟩
  intro h
  have h2 : (Except.error PyExc.attributeError : Except PyExc (Option PyVal))
      = .ok Option.none := h
  exact Except.noConfusion h2

/-- C9 amended: for every non-empty nested mapping with no numeric leaf
whose leaves are all falsy (empty strings, `None`, or empty
dictionaries), `convert_nested_dict` with a fresh accumulator collects
nothing, falls through its collection branch, and returns `None` —
neither the input nor an empty mapping; a non-empty string leaf instead
raises `AttributeError`. -/
theorem claim_C9_amended (fs : List (String × PyVal)) (hne : fs ≠ [])
    (h : noNumFalsyF fs = true) :
    convert_nested_dict (.dict fs) "" [] = ([], .ok Option.none) := by
  have hemp : fs.isEmpty = false := by
    cases fs with
    | nil => exact absurd rfl hne
    | cons q r => rfl
  have hloop := convert_fields_falsy fs h "" []
  simp [convert_nested_dict, hemp, hloop]

/-- C9 witness: a mapping of an empty string and a nested dictionary of
`None` returns `None`. -/
theorem claim_C9_witness :
    convert_nested_dict (.dict [("a", .str ""), ("b", .dict [("c", .null)])]) "" []
      = ([], .ok Option.none) :=
  claim_C9_amended _ (List.cons_ne_nil _ _) (by decide)

/-- C10 counterexample: when the transport fails on every attempt,
`get_point` does not return the mapping `error = max_retries` claimed:
`get_response` exhausts its own internal retries and raises `ValueError`
(so `ConnectionError` never reaches `get_point`), and `get_point`'s
generic handler then raises `UnboundLocalError` trying to read the
never-bound `response` local. -/
theorem claim_C10_counterexample :
    (get_point (fun _ => Option.none)).2 = .error .unboundLocalError ∧
    (get_point (fun _ => Option.none)).2 ≠ .ok [("error", .str "max_retries")] := by
  refine ⟨rfl, ?_⟩
  intro h
  have h2 : (Except.error PyExc.unboundLocalError : Except PyExc PyObj)
      = .ok [("error", .str "max_retries")] := h
  exact Except.noConfusion h2

/-- C10 amended: when every attempt fails at connection level,
`get_response` raises `ValueError` after its internal retries,
`get_point` raises `UnboundLocalError` from its generic handler, and
`enrich_cep`'s catch-all turns the record into the failure marker
`Error = True` keyed by the record index — not a geocoder-error
record. -/
theorem claim_C10_amended (net : Nat → Option PyObj)
    (h : ∀ j, net j = Option.none) (cep_index : Nat)
    (point_data : PyVal → PyVal → Except PyExc PyObj) :
    (get_response net).2 = .error .valueError ∧
    (get_point net).2 = .error .unboundLocalError ∧
    enrich_cep cep_index (get_point net).2 point_data
      = [(.idx cep_index, .dict [("Error", .bool true)])] := by
  have hgp := get_point_all_fail h
  refine ⟨?_, ?_, ?_⟩
  · unfold get_response
    rw [get_response_go_all_fail 5 0 (fun j _ => h (0 + j))]
  · rw [hgp]
  · rw [hgp]
    rfl

/-- C10 witness: the always-failing transport at record index 3. -/
theorem claim_C10_witness :
    (get_response (fun _ => Option.none)).2 = .error .valueError ∧
    (get_point (fun _ => Option.none)).2 = .error .unboundLocalError ∧
    enrich_cep 3 (get_point (fun _ => Option.none)).2 (fun _ _ => .ok [])
      = [(.idx 3, .dict [("Error", .bool true)])] :=
  claim_C10_amended _ (fun _ => rfl) 3 _
